import Mathlib

/-!
Verification of `day9/quick_sort.py`.

The source file is:

```python
from partition1 import partition_array as pa

def quick_sort(array,low,high):
    if high > low:
        pivot_index = pa(array, low, high)
        quick_sort(array, low, pivot_index-1)
        quick_sort(array, pivot_index +1, high)

l1=[34,223,22,31,1,100,50,40,22,72]
print(f'before sorting: {l1}')
quick_sort(l1, 0, len(11)-1)
print(f'after sorting: {11}')
```

The in-place mutation of the Python list is modelled by explicit state
passing: every function takes the current list and returns the new one.
Indices are `Int` because the recursive call `quick_sort(array, low,
pivot_index-1)` can produce the index `-1`.  The module `partition1` is not
part of the repository, so `partition_array` is modelled from the spec (see
its doc comment).  The general recursion of `quick_sort` is embedded with
explicit fuel (`quick_sortF`); the theorem `quick_sort_terminates` shows
that fuel `(high - low).toNat + 1` always suffices, which is exactly the
termination argument of the spec (each recursive call works on a strictly
smaller range).
-/

/-- Value of `a[i]` for an `Int` index, with default `0` out of range. -/
def getI (a : List Int) (i : Int) : Int := a.getD i.toNat 0

/-- The sub-list `a[low..high]` (inclusive bounds). -/
def rangeSlice (a : List Int) (low high : Int) : List Int :=
  (a.drop low.toNat).take (high + 1 - low).toNat

/-- Modelled from the spec: the repository imports `partition_array` from the
module `partition1`, whose source is not in the repository.  Following spec
section 4.1 it chooses the last element `a[high]` of the range as the pivot
value, rearranges the elements of `[low, high]` in place so that the
elements `<=` pivot come first, then the pivot, then the elements `>` pivot,
and returns the pivot's final index.  For `low == high` it returns `low`
without any comparison, as the spec's edge case requires. -/
def partition_array (a : List Int) (low high : Int) : List Int × Int :=
  if low < high then
    let pivot := getI a high
    let body := rangeSlice a low (high - 1)
    let left := body.filter fun x => decide (x ≤ pivot)
    let right := body.filter fun x => !decide (x ≤ pivot)
    (a.take low.toNat ++ (left ++ pivot :: right) ++ a.drop (high.toNat + 1),
     low + (left.length : Int))
  else
    (a, low)

/-- Fuel-indexed embedding of `quick_sort` from `day9/quick_sort.py`.  The
body is a literal transcription of the Python code: if `high > low`, call
the partitioner, then recursively sort `[low, pivot_index - 1]` and
`[pivot_index + 1, high]`; otherwise return without touching the list.
`none` means the fuel ran out before the recursion reached its base case. -/
def quick_sortF : Nat → List Int → Int → Int → Option (List Int)
  | 0, _, _, _ => none
  | fuel + 1, array, low, high =>
    if high > low then
      let r := partition_array array low high
      match quick_sortF fuel r.1 low (r.2 - 1) with
      | none => none
      | some a2 => quick_sortF fuel a2 (r.2 + 1) high
    else
      some array

/-- `quick_sort array low high`: the list after the Python call returns.
Fuel `(high - low).toNat + 1` bounds the recursion depth (each recursive
call strictly shrinks the range); `quick_sort_terminates` proves it is
always enough. -/
def quick_sort (array : List Int) (low high : Int) : List Int :=
  (quick_sortF ((high - low).toNat + 1) array low high).getD array

/-- Sorting a whole sequence, the way the demonstration harness intends to
call `quick_sort`: `low = 0`, `high = length - 1`. -/
def sortList (array : List Int) : List Int :=
  quick_sort array 0 ((array.length : Int) - 1)

/-- The literal list of the demonstration harness. -/
def l1 : List Int := [34, 223, 22, 31, 1, 100, 50, 40, 22, 72]

/-- The sub-range `[low, high]` of `a` is in non-decreasing order. -/
def sortedOn (a : List Int) (low high : Int) : Prop :=
  ∀ i j : Int, low ≤ i → i ≤ j → j ≤ high → getI a i ≤ getI a j

/-- The elements of `pbody a low high` are the elements the partitioner
compares against the pivot: `a[low..high-1]`. -/
def pbody (a : List Int) (low high : Int) : List Int :=
  rangeSlice a low (high - 1)

/-- The elements of the range that the partitioner puts before the pivot. -/
def pleft (a : List Int) (low high : Int) : List Int :=
  (pbody a low high).filter fun x => decide (x ≤ getI a high)

/-- The elements of the range that the partitioner puts after the pivot. -/
def pright (a : List Int) (low high : Int) : List Int :=
  (pbody a low high).filter fun x => !decide (x ≤ getI a high)

theorem partition_array_eq (a : List Int) (low high : Int) (h : low < high) :
    partition_array a low high =
      (a.take low.toNat ++
        ((pleft a low high ++ getI a high :: pright a low high) ++
          a.drop (high.toNat + 1)),
       low + ((pleft a low high).length : Int)) := by
  simp only [partition_array, if_pos h, pleft, pright, pbody]
  simp [List.append_assoc]

theorem getD_append_left {l l' : List Int} {n : Nat} (h : n < l.length) (d : Int) :
    (l ++ l').getD n d = l.getD n d := by
  simp [List.getD_eq_getElem?_getD, List.getElem?_append_left h]

theorem getD_append_right {l l' : List Int} {n : Nat} (h : l.length ≤ n) (d : Int) :
    (l ++ l').getD n d = l'.getD (n - l.length) d := by
  simp [List.getD_eq_getElem?_getD, List.getElem?_append_right h]

theorem getD_take {l : List Int} {n k : Nat} (h : k < n) (d : Int) :
    (l.take n).getD k d = l.getD k d := by
  simp [List.getD_eq_getElem?_getD, List.getElem?_take_of_lt h]

theorem getD_drop (l : List Int) (n k : Nat) (d : Int) :
    (l.drop n).getD k d = l.getD (n + k) d := by
  simp [List.getD_eq_getElem?_getD, List.getElem?_drop]

theorem getD_mem {l : List Int} {k : Nat} (h : k < l.length) (d : Int) :
    l.getD k d ∈ l := by
  rw [List.getD_eq_getElem?_getD, List.getElem?_eq_getElem h]
  exact List.getElem_mem h

/-- Splitting a list around position `hi`. -/
theorem list_decomp (a : List Int) (lo hi : Nat) (hlo : lo ≤ hi)
    (hhi : hi < a.length) :
    a = a.take lo ++ ((a.drop lo).take (hi - lo) ++ a.getD hi 0 :: a.drop (hi + 1)) := by
  conv_lhs => rw [← List.take_append_drop lo a]
  congr 1
  conv_lhs => rw [← List.take_append_drop (hi - lo) (a.drop lo)]
  congr 1
  rw [List.drop_drop]
  have h1 : lo + (hi - lo) = hi := by omega
  rw [h1, List.drop_eq_getElem_cons hhi]
  congr 1
  rw [List.getD_eq_getElem?_getD, List.getElem?_eq_getElem hhi]
  rfl

theorem pbody_eq (a : List Int) (low high : Int) (h0 : 0 ≤ low) (h : low ≤ high) :
    pbody a low high = (a.drop low.toNat).take (high.toNat - low.toNat) := by
  unfold pbody rangeSlice
  congr 1
  omega

theorem pbody_length_le (a : List Int) (low high : Int) :
    (pbody a low high).length ≤ (high - low).toNat := by
  unfold pbody rangeSlice
  rw [List.length_take]
  have h1 : (high - 1 + 1 - low).toNat = (high - low).toNat := by omega
  rw [h1]
  exact Nat.min_le_left _ _

theorem pbody_length (a : List Int) (low high : Int) (h0 : 0 ≤ low)
    (h : low ≤ high) (hh : high < (a.length : Int)) :
    (pbody a low high).length = high.toNat - low.toNat := by
  rw [pbody_eq a low high h0 h, List.length_take, List.length_drop]
  have h1 : high.toNat - low.toNat ≤ a.length - low.toNat := by omega
  exact Nat.min_eq_left h1

theorem pleft_pright_length (a : List Int) (low high : Int) :
    (pleft a low high).length + (pright a low high).length
      = (pbody a low high).length := by
  have hperm := List.filter_append_perm (fun x => decide (x ≤ getI a high))
    (pbody a low high)
  have := hperm.length_eq
  simpa [pleft, pright] using this

theorem mem_pleft_le {a : List Int} {low high x : Int} (hx : x ∈ pleft a low high) :
    x ≤ getI a high := by
  rw [pleft, List.mem_filter] at hx
  exact of_decide_eq_true hx.2

theorem mem_pright_ge {a : List Int} {low high x : Int} (hx : x ∈ pright a low high) :
    getI a high ≤ x := by
  rw [pright, List.mem_filter] at hx
  have := hx.2
  simp at this
  omega

theorem partition_array_fst (a : List Int) (low high : Int) (h : low < high) :
    (partition_array a low high).1 =
      a.take low.toNat ++
        ((pleft a low high ++ getI a high :: pright a low high) ++
          a.drop (high.toNat + 1)) := by
  rw [partition_array_eq a low high h]

theorem partition_array_snd (a : List Int) (low high : Int) (h : low < high) :
    (partition_array a low high).2 = low + ((pleft a low high).length : Int) := by
  rw [partition_array_eq a low high h]

theorem pleft_length_le (a : List Int) (low high : Int) :
    (pleft a low high).length ≤ (pbody a low high).length := by
  rw [pleft]
  exact List.length_filter_le _ _

/-- The pivot index returned by the partitioner lies inside `[low, high]`
whenever `low < high` (no validity of the range in the sequence needed). -/
theorem partition_array_idx (a : List Int) (low high : Int) (h : low < high) :
    low ≤ (partition_array a low high).2 ∧ (partition_array a low high).2 ≤ high := by
  rw [partition_array_snd a low high h]
  have h1 := pleft_length_le a low high
  have h2 := pbody_length_le a low high
  omega

/-- The partitioner permutes the sequence (same multiset of elements). -/
theorem partition_array_perm (a : List Int) (low high : Int) (h0 : 0 ≤ low)
    (h : low < high) (hh : high < (a.length : Int)) :
    (partition_array a low high).1.Perm a := by
  rw [partition_array_fst a low high h]
  have hhi : high.toNat < a.length := by omega
  have hlohi : low.toNat ≤ high.toNat := by omega
  conv_rhs => rw [list_decomp a low.toNat high.toNat hlohi hhi]
  apply List.Perm.append_left
  have hb : (a.drop low.toNat).take (high.toNat - low.toNat) = pbody a low high :=
    (pbody_eq a low high h0 (le_of_lt h)).symm
  rw [hb]
  have hpv : a.getD high.toNat 0 = getI a high := rfl
  rw [hpv]
  have s1 : (pleft a low high ++ getI a high :: pright a low high) ++
        a.drop (high.toNat + 1)
      = pleft a low high ++
          (getI a high :: (pright a low high ++ a.drop (high.toNat + 1))) := by
    simp [List.append_assoc]
  rw [s1]
  have s2 : List.Perm
      (pleft a low high ++
        (getI a high :: (pright a low high ++ a.drop (high.toNat + 1))))
      (getI a high ::
        (pleft a low high ++ (pright a low high ++ a.drop (high.toNat + 1)))) :=
    List.perm_middle
  have s3 : List.Perm
      (pleft a low high ++ (pright a low high ++ a.drop (high.toNat + 1)))
      (pbody a low high ++ a.drop (high.toNat + 1)) := by
    rw [← List.append_assoc]
    apply List.Perm.append_right
    simp only [pleft, pright]
    exact List.filter_append_perm _ _
  have s4 : List.Perm
      (pbody a low high ++ getI a high :: a.drop (high.toNat + 1))
      (getI a high :: (pbody a low high ++ a.drop (high.toNat + 1))) :=
    List.perm_middle
  exact s2.trans ((s3.cons _).trans s4.symm)

theorem partition_array_length (a : List Int) (low high : Int) (h0 : 0 ≤ low)
    (h : low < high) (hh : high < (a.length : Int)) :
    (partition_array a low high).1.length = a.length :=
  (partition_array_perm a low high h0 h hh).length_eq

theorem take_low_length (a : List Int) (low high : Int) (h0 : 0 ≤ low)
    (h : low < high) (hh : high < (a.length : Int)) :
    (a.take low.toNat).length = low.toNat := by
  rw [List.length_take]
  exact Nat.min_eq_left (by omega)

theorem mid_length (a : List Int) (low high : Int) (h0 : 0 ≤ low)
    (h : low < high) (hh : high < (a.length : Int)) :
    (pleft a low high ++ getI a high :: pright a low high).length
      = high.toNat - low.toNat + 1 := by
  have h1 := pleft_pright_length a low high
  have h2 := pbody_length a low high h0 (le_of_lt h) hh
  simp only [List.length_append, List.length_cons]
  omega

/-- Outside `[low, high]` the partitioner leaves every element in place. -/
theorem partition_array_frame (a : List Int) (low high : Int) (h0 : 0 ≤ low)
    (h : low < high) (hh : high < (a.length : Int)) :
    ∀ i : Nat, ((i : Int) < low ∨ high < (i : Int)) →
      (partition_array a low high).1.getD i 0 = a.getD i 0 := by
  intro i hout
  rw [partition_array_fst a low high h]
  have hlt := take_low_length a low high h0 h hh
  have hM := mid_length a low high h0 h hh
  rcases hout with h1 | h1
  · have h2 : i < low.toNat := by omega
    rw [getD_append_left (show i < (a.take low.toNat).length by rw [hlt]; omega),
      getD_take h2]
  · have h2 : high.toNat + 1 ≤ i := by omega
    rw [getD_append_right (show (a.take low.toNat).length ≤ i by rw [hlt]; omega),
      hlt,
      getD_append_right (show (pleft a low high ++ getI a high ::
        pright a low high).length ≤ i - low.toNat by rw [hM]; omega),
      hM, getD_drop]
    have e : high.toNat + 1 + (i - low.toNat - (high.toNat - low.toNat + 1)) = i := by
      omega
    rw [e]

/-- Every element strictly left of the returned pivot index is `<=` the
pivot value. -/
theorem partition_array_getD_left (a : List Int) (low high : Int) (h0 : 0 ≤ low)
    (h : low < high) (hh : high < (a.length : Int)) :
    ∀ i : Nat, low ≤ (i : Int) → (i : Int) < (partition_array a low high).2 →
      (partition_array a low high).1.getD i 0 ≤ getI a high := by
  intro i h1 h2
  rw [partition_array_snd a low high h] at h2
  have hiL : i - low.toNat < (pleft a low high).length := by omega
  rw [partition_array_fst a low high h]
  have hlt := take_low_length a low high h0 h hh
  rw [getD_append_right (show (a.take low.toNat).length ≤ i by rw [hlt]; omega),
    hlt,
    getD_append_left (show i - low.toNat <
      (pleft a low high ++ getI a high :: pright a low high).length by
        rw [List.length_append]; omega),
    getD_append_left hiL]
  exact mem_pleft_le (getD_mem hiL 0)

/-- The element standing at the returned pivot index is the pivot value. -/
theorem partition_array_getD_pivot (a : List Int) (low high : Int) (h0 : 0 ≤ low)
    (h : low < high) (hh : high < (a.length : Int)) :
    getI (partition_array a low high).1 (partition_array a low high).2
      = getI a high := by
  rw [partition_array_snd a low high h, partition_array_fst a low high h, getI]
  have htn : (low + ((pleft a low high).length : Int)).toNat
      = low.toNat + (pleft a low high).length := by omega
  rw [htn]
  have hlt := take_low_length a low high h0 h hh
  rw [getD_append_right (show (a.take low.toNat).length ≤
      low.toNat + (pleft a low high).length by rw [hlt]; omega), hlt]
  have e1 : low.toNat + (pleft a low high).length - low.toNat
      = (pleft a low high).length := by omega
  rw [e1,
    getD_append_left (show (pleft a low high).length <
      (pleft a low high ++ getI a high :: pright a low high).length by
        rw [List.length_append, List.length_cons]; omega),
    getD_append_right (le_refl (pleft a low high).length)]
  have e2 : (pleft a low high).length - (pleft a low high).length = 0 := by omega
  rw [e2, List.getD_cons_zero]

/-- Every element strictly right of the returned pivot index is `>=` the
pivot value. -/
theorem partition_array_getD_right (a : List Int) (low high : Int) (h0 : 0 ≤ low)
    (h : low < high) (hh : high < (a.length : Int)) :
    ∀ i : Nat, (partition_array a low high).2 < (i : Int) → (i : Int) ≤ high →
      getI a high ≤ (partition_array a low high).1.getD i 0 := by
  intro i h1 h2
  rw [partition_array_snd a low high h] at h1
  have hLR := pleft_pright_length a low high
  have hB := pbody_length a low high h0 (le_of_lt h) hh
  have hlt := take_low_length a low high h0 h hh
  have hiR : i - low.toNat - (pleft a low high).length - 1
      < (pright a low high).length := by omega
  rw [partition_array_fst a low high h]
  rw [getD_append_right (show (a.take low.toNat).length ≤ i by rw [hlt]; omega),
    hlt,
    getD_append_left (show i - low.toNat <
      (pleft a low high ++ getI a high :: pright a low high).length by
        rw [List.length_append, List.length_cons]; omega),
    getD_append_right (show (pleft a low high).length ≤ i - low.toNat by omega)]
  have e : i - low.toNat - (pleft a low high).length
      = (i - low.toNat - (pleft a low high).length - 1) + 1 := by omega
  rw [e, List.getD_cons_succ]
  exact mem_pright_ge (getD_mem hiR 0)

theorem getD_eq_getElem' {l : List Int} {k : Nat} (h : k < l.length) (d : Int) :
    l.getD k d = l[k] := by
  rw [List.getD_eq_getElem?_getD, List.getElem?_eq_getElem h]
  rfl

theorem take_eq_of_frame {x y : List Int} {n : Nat}
    (hlen : y.length = x.length)
    (hf : ∀ i : Nat, i < n → y.getD i 0 = x.getD i 0) :
    y.take n = x.take n := by
  apply List.ext_getElem?
  intro k
  by_cases hk : k < n
  · rw [List.getElem?_take_of_lt hk, List.getElem?_take_of_lt hk]
    by_cases hkx : k < x.length
    · have hky : k < y.length := by omega
      have hv := hf k hk
      rw [getD_eq_getElem' hky 0, getD_eq_getElem' hkx 0] at hv
      rw [List.getElem?_eq_getElem hkx, List.getElem?_eq_getElem hky, hv]
    · rw [List.getElem?_eq_none (by omega), List.getElem?_eq_none (by omega)]
  · have h1 : (y.take n).length ≤ k :=
      le_trans (List.length_take_le n y) (by omega)
    have h2 : (x.take n).length ≤ k :=
      le_trans (List.length_take_le n x) (by omega)
    rw [List.getElem?_eq_none h1, List.getElem?_eq_none h2]

theorem drop_eq_of_frame {x y : List Int} {n : Nat}
    (hlen : y.length = x.length)
    (hf : ∀ i : Nat, n ≤ i → y.getD i 0 = x.getD i 0) :
    y.drop n = x.drop n := by
  apply List.ext_getElem?
  intro k
  rw [List.getElem?_drop, List.getElem?_drop]
  by_cases hkx : n + k < x.length
  · have hky : n + k < y.length := by omega
    have hv := hf (n + k) (by omega)
    rw [getD_eq_getElem' hky 0, getD_eq_getElem' hkx 0] at hv
    rw [List.getElem?_eq_getElem hkx, List.getElem?_eq_getElem hky, hv]
  · rw [List.getElem?_eq_none (by omega), List.getElem?_eq_none (by omega)]

theorem take_drop_decomp (z : List Int) (lo hi : Nat) (h : lo ≤ hi + 1) :
    z = z.take lo ++ ((z.drop lo).take (hi + 1 - lo) ++ z.drop (hi + 1)) := by
  conv_lhs => rw [← List.take_append_drop lo z]
  congr 1
  conv_lhs => rw [← List.take_append_drop (hi + 1 - lo) (z.drop lo)]
  congr 1
  rw [List.drop_drop]
  congr 1
  omega

/-- If `y` is a permutation of `x` that agrees with `x` outside `[lo, hi]`,
then the `[lo, hi]` portions are permutations of each other. -/
theorem perm_frame_slice {x y : List Int} {lo hi : Nat} (hlohi : lo ≤ hi)
    (hperm : List.Perm y x)
    (hf : ∀ i : Nat, (i < lo ∨ hi < i) → y.getD i 0 = x.getD i 0) :
    List.Perm ((y.drop lo).take (hi + 1 - lo)) ((x.drop lo).take (hi + 1 - lo)) := by
  have hlen := hperm.length_eq
  have ht : y.take lo = x.take lo :=
    take_eq_of_frame hlen (fun i h => hf i (Or.inl h))
  have hd : y.drop (hi + 1) = x.drop (hi + 1) :=
    drop_eq_of_frame hlen (fun i h => hf i (Or.inr (by omega)))
  have h2 : List.Perm
      (y.take lo ++ ((y.drop lo).take (hi + 1 - lo) ++ y.drop (hi + 1)))
      (x.take lo ++ ((x.drop lo).take (hi + 1 - lo) ++ x.drop (hi + 1))) := by
    rw [← take_drop_decomp y lo hi (by omega), ← take_drop_decomp x lo hi (by omega)]
    exact hperm
  rw [ht, hd] at h2
  have h3 := (List.perm_append_left_iff _).1 h2
  exact (List.perm_append_right_iff _).1 h3

/-- Each element of the `[lo, hi]` portion of `y` occurs somewhere in the
`[lo, hi]` portion of `x`, when `y` is a permutation of `x` fixing
everything outside `[lo, hi]`. -/
theorem perm_frame_mem {x y : List Int} {lo hi : Nat}
    (hperm : List.Perm y x)
    (hf : ∀ i : Nat, (i < lo ∨ hi < i) → y.getD i 0 = x.getD i 0) :
    ∀ i : Nat, lo ≤ i → i ≤ hi → i < y.length →
      ∃ j : Nat, lo ≤ j ∧ j ≤ hi ∧ j < x.length ∧ y.getD i 0 = x.getD j 0 := by
  intro i h1 h2 h3
  have hsl := perm_frame_slice (by omega) hperm hf
  have hi1 : i - lo < hi + 1 - lo := by omega
  have hislice : i - lo < ((y.drop lo).take (hi + 1 - lo)).length := by
    rw [List.length_take, List.length_drop, lt_min_iff]
    omega
  have hyval : ((y.drop lo).take (hi + 1 - lo)).getD (i - lo) 0 = y.getD i 0 := by
    rw [getD_take hi1, getD_drop]
    congr 1
    omega
  have hmem : y.getD i 0 ∈ (y.drop lo).take (hi + 1 - lo) := by
    rw [← hyval]
    exact getD_mem hislice 0
  have hmem2 : y.getD i 0 ∈ (x.drop lo).take (hi + 1 - lo) := hsl.mem_iff.1 hmem
  obtain ⟨k, hk, hkeq⟩ := List.mem_iff_getElem.1 hmem2
  rw [List.length_take, List.length_drop, lt_min_iff] at hk
  refine ⟨lo + k, by omega, by omega, by omega, ?_⟩
  have hxval : ((x.drop lo).take (hi + 1 - lo)).getD k 0 = x.getD (lo + k) 0 := by
    rw [getD_take hk.1, getD_drop]
  have hk2 : k < ((x.drop lo).take (hi + 1 - lo)).length := by
    rw [List.length_take, List.length_drop, lt_min_iff]
    omega
  rw [← hxval, getD_eq_getElem' hk2 0, hkeq]

theorem quick_sortF_succ (fuel : Nat) (a : List Int) (low high : Int) :
    quick_sortF (fuel + 1) a low high =
      if high > low then
        match quick_sortF fuel (partition_array a low high).1 low
            ((partition_array a low high).2 - 1) with
        | none => none
        | some a2 => quick_sortF fuel a2 ((partition_array a low high).2 + 1) high
      else some a := rfl

theorem quick_sortF_base {fuel : Nat} (hf : 0 < fuel) {a : List Int}
    {low high : Int} (h : high ≤ low) : quick_sortF fuel a low high = some a := by
  cases fuel with
  | zero => omega
  | succ n => rw [quick_sortF_succ, if_neg (by omega)]

theorem quick_sortF_step {n : Nat} {a : List Int} {low high : Int} {a2 : List Int}
    (hg : high > low)
    (h1 : quick_sortF n (partition_array a low high).1 low
        ((partition_array a low high).2 - 1) = some a2) :
    quick_sortF (n + 1) a low high
      = quick_sortF n a2 ((partition_array a low high).2 + 1) high := by
  rw [quick_sortF_succ, if_pos hg, h1]

theorem quick_sortF_step_none {n : Nat} {a : List Int} {low high : Int}
    (hg : high > low)
    (h1 : quick_sortF n (partition_array a low high).1 low
        ((partition_array a low high).2 - 1) = none) :
    quick_sortF (n + 1) a low high = none := by
  rw [quick_sortF_succ, if_pos hg, h1]

/-- Fuel `(high - low).toNat + 1` (the size of the range) always suffices:
the recursion always reaches its base case, because the pivot index lies
in `[low, high]` and both recursive ranges are strictly smaller. -/
theorem quick_sortF_isSome : ∀ (fuel : Nat) (a : List Int) (low high : Int),
    (high - low).toNat < fuel → ∃ b, quick_sortF fuel a low high = some b := by
  intro fuel
  induction fuel with
  | zero => intro a low high h; omega
  | succ n ih =>
    intro a low high h
    by_cases hg : high > low
    · have hidx := partition_array_idx a low high hg
      obtain ⟨a2, ha2⟩ := ih (partition_array a low high).1 low
        ((partition_array a low high).2 - 1) (by omega)
      obtain ⟨b, hb⟩ := ih a2 ((partition_array a low high).2 + 1) high (by omega)
      exact ⟨b, (quick_sortF_step hg ha2).trans hb⟩
    · exact ⟨a, quick_sortF_base (Nat.succ_pos n) (by omega)⟩

/-- Any two sufficient amounts of fuel produce the same result. -/
theorem quick_sortF_agree : ∀ (fuel fuel' : Nat) (a : List Int) (low high : Int),
    (high - low).toNat < fuel → (high - low).toNat < fuel' →
    quick_sortF fuel a low high = quick_sortF fuel' a low high := by
  intro fuel
  induction fuel with
  | zero => intro fuel' a low high h _; omega
  | succ n ih =>
    intro fuel' a low high h h'
    cases fuel' with
    | zero => omega
    | succ m =>
      by_cases hg : high > low
      · have hidx := partition_array_idx a low high hg
        have hinner := ih m (partition_array a low high).1 low
          ((partition_array a low high).2 - 1) (by omega) (by omega)
        cases hres : quick_sortF m (partition_array a low high).1 low
            ((partition_array a low high).2 - 1) with
        | none =>
          rw [quick_sortF_step_none hg (hinner.trans hres),
            quick_sortF_step_none hg hres]
        | some a2 =>
          rw [quick_sortF_step hg (hinner.trans hres), quick_sortF_step hg hres]
          exact ih m a2 ((partition_array a low high).2 + 1) high
            (by omega) (by omega)
      · rw [quick_sortF_base (Nat.succ_pos n) (by omega),
          quick_sortF_base (Nat.succ_pos m) (by omega)]

theorem quick_sortF_eq_quick_sort (fuel : Nat) (a : List Int) (low high : Int)
    (h : (high - low).toNat < fuel) :
    quick_sortF fuel a low high = some (quick_sort a low high) := by
  obtain ⟨b, hb⟩ := quick_sortF_isSome ((high - low).toNat + 1) a low high
    (by omega)
  rw [quick_sort,
    quick_sortF_agree fuel ((high - low).toNat + 1) a low high h (by omega), hb]
  rfl

theorem sortedOn_of_base {a : List Int} {low high : Int} (h : high ≤ low) :
    sortedOn a low high := by
  intro i j hi hij hj
  have he : i = j := by omega
  rw [he]

/-- Main invariant of the driver: a successful run permutes the sequence,
fixes every position outside `[low, high]`, and sorts `[low, high]`. -/
theorem quick_sortF_spec : ∀ (fuel : Nat) (a : List Int) (low high : Int)
    (b : List Int), 0 ≤ low → high < (a.length : Int) →
    quick_sortF fuel a low high = some b →
    List.Perm b a ∧
      (∀ i : Nat, ((i : Int) < low ∨ high < (i : Int)) →
        b.getD i 0 = a.getD i 0) ∧
      sortedOn b low high := by
  intro fuel
  induction fuel with
  | zero =>
    intro a low high b _ _ hres
    exact absurd hres (by simp [quick_sortF])
  | succ n ih =>
    intro a low high b h0 hh hres
    by_cases hg : high > low
    · obtain ⟨hplow, hphigh⟩ := partition_array_idx a low high hg
      have hperm1 := partition_array_perm a low high h0 hg hh
      have hframe1 := partition_array_frame a low high h0 hg hh
      have hlen1 : (partition_array a low high).1.length = a.length :=
        hperm1.length_eq
      cases hres1 : quick_sortF n (partition_array a low high).1 low
          ((partition_array a low high).2 - 1) with
      | none =>
        rw [quick_sortF_step_none hg hres1] at hres
        exact absurd hres (by simp)
      | some a2 =>
        have hres2 : quick_sortF n a2 ((partition_array a low high).2 + 1) high
            = some b := (quick_sortF_step hg hres1).symm.trans hres
        obtain ⟨hperm2, hframe2, hsort2⟩ :=
          ih (partition_array a low high).1 low
            ((partition_array a low high).2 - 1) a2 h0
            (by rw [hlen1]; omega) hres1
        have hlen2 : a2.length = a.length := by
          rw [hperm2.length_eq, hlen1]
        obtain ⟨hperm3, hframe3, hsort3⟩ :=
          ih a2 ((partition_array a low high).2 + 1) high b (by omega)
            (by rw [hlen2]; omega) hres2
        have hlen3 : b.length = a.length := by
          rw [hperm3.length_eq, hlen2]
        refine ⟨(hperm3.trans hperm2).trans hperm1, ?_, ?_⟩
        · intro i hout
          have e3 : b.getD i 0 = a2.getD i 0 := hframe3 i (by omega)
          have e2 : a2.getD i 0 = (partition_array a low high).1.getD i 0 :=
            hframe2 i (by omega)
          rw [e3, e2, hframe1 i hout]
        · -- values on the left of the pivot index are <= the pivot value
          have hleftb : ∀ k : Nat, low ≤ (k : Int) →
              (k : Int) ≤ (partition_array a low high).2 - 1 →
              b.getD k 0 ≤ getI a high := by
            intro k hk1 hk2
            have hb2 : b.getD k 0 = a2.getD k 0 := hframe3 k (by omega)
            have hfn : ∀ i : Nat, (i < low.toNat ∨
                ((partition_array a low high).2 - 1).toNat < i) →
                a2.getD i 0 = (partition_array a low high).1.getD i 0 := by
              intro i hi
              exact hframe2 i (by omega)
            obtain ⟨j, hj1, hj2, hj3, hj4⟩ :=
              perm_frame_mem hperm2 hfn k (by omega) (by omega)
                (by rw [hlen2]; omega)
            rw [hb2, hj4]
            exact partition_array_getD_left a low high h0 hg hh j (by omega)
              (by omega)
          -- values on the right of the pivot index are >= the pivot value
          have hrightb : ∀ k : Nat,
              (partition_array a low high).2 + 1 ≤ (k : Int) →
              (k : Int) ≤ high → getI a high ≤ b.getD k 0 := by
            intro k hk1 hk2
            have hfn : ∀ i : Nat,
                (i < ((partition_array a low high).2 + 1).toNat ∨
                  high.toNat < i) →
                b.getD i 0 = a2.getD i 0 := by
              intro i hi
              exact hframe3 i (by omega)
            obtain ⟨j, hj1, hj2, hj3, hj4⟩ :=
              perm_frame_mem hperm3 hfn k (by omega) (by omega)
                (by rw [hlen3]; omega)
            have hj5 : a2.getD j 0 = (partition_array a low high).1.getD j 0 :=
              hframe2 j (by omega)
            rw [hj4, hj5]
            exact partition_array_getD_right a low high h0 hg hh j (by omega)
              (by omega)
          -- the element now standing at the pivot index is the pivot value
          have hmid : getI b (partition_array a low high).2 = getI a high := by
            have e3 : b.getD (partition_array a low high).2.toNat 0
                = a2.getD (partition_array a low high).2.toNat 0 :=
              hframe3 _ (by omega)
            have e2 : a2.getD (partition_array a low high).2.toNat 0
                = (partition_array a low high).1.getD
                    (partition_array a low high).2.toNat 0 :=
              hframe2 _ (by omega)
            have e1 := partition_array_getD_pivot a low high h0 hg hh
            rw [getI, e3, e2]
            exact e1
          have hsortb_left : sortedOn b low ((partition_array a low high).2 - 1) := by
            intro i j hi hij hj
            have ei : getI b i = getI a2 i := hframe3 i.toNat (by omega)
            have ej : getI b j = getI a2 j := hframe3 j.toNat (by omega)
            rw [ei, ej]
            exact hsort2 i j hi hij hj
          have hL : ∀ i : Int, low ≤ i → i ≤ (partition_array a low high).2 →
              getI b i ≤ getI a high := by
            intro i h1 h2
            rcases eq_or_lt_of_le h2 with he | hlt
            · rw [he, hmid]
            · exact hleftb i.toNat (by omega) (by omega)
          have hR : ∀ j : Int, (partition_array a low high).2 ≤ j → j ≤ high →
              getI a high ≤ getI b j := by
            intro j h1 h2
            rcases eq_or_lt_of_le h1 with he | hlt
            · rw [← he, hmid]
            · exact hrightb j.toNat (by omega) (by omega)
          intro i j h1 h2 h3
          rcases le_or_lt j ((partition_array a low high).2 - 1) with hc | hc
          · exact hsortb_left i j h1 h2 hc
          · rcases le_or_lt ((partition_array a low high).2 + 1) i with hd | hd
            · exact hsort3 i j hd h2 h3
            · exact le_trans (hL i h1 (by omega)) (hR j (by omega) h3)
    · rw [quick_sortF_base (Nat.succ_pos n) (by omega)] at hres
      have hab : a = b := by
        injection hres
      subst hab
      exact ⟨List.Perm.refl a, fun i _ => rfl, sortedOn_of_base (by omega)⟩

/-- The specification of `quick_sort` on a valid range: permutation, frame,
and sortedness of `[low, high]`. -/
theorem quick_sort_spec (a : List Int) (low high : Int) (h0 : 0 ≤ low)
    (hh : high < (a.length : Int)) :
    List.Perm (quick_sort a low high) a ∧
      (∀ i : Nat, ((i : Int) < low ∨ high < (i : Int)) →
        (quick_sort a low high).getD i 0 = a.getD i 0) ∧
      sortedOn (quick_sort a low high) low high :=
  quick_sortF_spec ((high - low).toNat + 1) a low high _ h0 hh
    (quick_sortF_eq_quick_sort _ a low high (by omega))

theorem getI_natCast (a : List Int) (k : Nat) : getI a (k : Int) = a.getD k 0 := rfl

theorem pbody_getD (a : List Int) (low high : Int) (h0 : 0 ≤ low)
    (hlh : low ≤ high) (k : Nat) (hk : k < (pbody a low high).length) :
    (pbody a low high).getD k 0 = a.getD (low.toNat + k) 0 := by
  rw [pbody_eq a low high h0 hlh] at hk ⊢
  rw [List.length_take, List.length_drop, lt_min_iff] at hk
  rw [getD_take hk.1, getD_drop]

/-- On an already sorted range, the partitioner leaves the sequence
unchanged and returns `high` as the pivot index. -/
theorem partition_array_sorted (a : List Int) (low high : Int) (h0 : 0 ≤ low)
    (hg : low < high) (hh : high < (a.length : Int)) (hs : sortedOn a low high) :
    partition_array a low high = (a, high) := by
  have hbodyle : ∀ x ∈ pbody a low high, x ≤ getI a high := by
    intro x hx
    obtain ⟨k, hk, hkeq⟩ := List.mem_iff_getElem.1 hx
    have h1 : (pbody a low high).getD k 0 = x := by
      rw [getD_eq_getElem' hk 0, hkeq]
    have h2 := pbody_getD a low high h0 (le_of_lt hg) k hk
    have hkB : k < high.toNat - low.toNat := by
      have := pbody_length a low high h0 (le_of_lt hg) hh
      omega
    have h3 := hs ((low.toNat + k : Nat) : Int) high (by omega) (by omega)
      (le_refl high)
    rw [getI_natCast] at h3
    rw [← h1, h2]
    exact h3
  have hpleft_eq : pleft a low high = pbody a low high := by
    rw [pleft]
    apply List.filter_eq_self.mpr
    intro x hx
    exact decide_eq_true (hbodyle x hx)
  have hpright_eq : pright a low high = [] := by
    rw [pright]
    apply List.filter_eq_nil_iff.mpr
    intro x hx
    simp only [Bool.not_eq_true', decide_eq_false_iff_not, not_not]
    exact hbodyle x hx
  have hB := pbody_length a low high h0 (le_of_lt hg) hh
  rw [partition_array_eq a low high hg, hpleft_eq, hpright_eq]
  have h2 : low + ((pbody a low high).length : Int) = high := by omega
  rw [h2]
  congr 1
  conv_rhs => rw [list_decomp a low.toNat high.toNat (by omega) (by omega)]
  rw [pbody_eq a low high h0 (le_of_lt hg)]
  simp [getI, List.append_assoc]

/-- Running the driver on an already sorted range returns the sequence
unchanged. -/
theorem quick_sortF_sorted_fix : ∀ (fuel : Nat) (a : List Int) (low high : Int),
    0 ≤ low → high < (a.length : Int) → sortedOn a low high →
    (high - low).toNat < fuel →
    quick_sortF fuel a low high = some a := by
  intro fuel
  induction fuel with
  | zero => intro a low high _ _ _ h; omega
  | succ n ih =>
    intro a low high h0 hh hs hf
    by_cases hg : high > low
    · have hpart := partition_array_sorted a low high h0 hg hh hs
      have hs1 : sortedOn a low (high - 1) := fun i j h1 h2 h3 =>
        hs i j h1 h2 (by omega)
      have hrec1 : quick_sortF n (partition_array a low high).1 low
          ((partition_array a low high).2 - 1) = some a := by
        rw [hpart]
        exact ih a low (high - 1) h0 (by omega) hs1 (by omega)
      have hstep := quick_sortF_step hg hrec1
      rw [hstep, hpart]
      exact quick_sortF_base (by omega) (by omega)
    · exact quick_sortF_base (Nat.succ_pos n) (by omega)

theorem quick_sort_sorted_fix (a : List Int) (low high : Int) (h0 : 0 ≤ low)
    (hh : high < (a.length : Int)) (hs : sortedOn a low high) :
    quick_sort a low high = a := by
  have h1 := quick_sortF_sorted_fix ((high - low).toNat + 1) a low high h0 hh hs
    (by omega)
  rw [quick_sort, h1]
  rfl

/-- C1: for every sequence and every valid range `[low, high]` into it, the
imported partitioner `partition_array` (modelled from the spec) satisfies
the partition invariant of spec section 3 and returns an index within
`[low, high]` (see `partition_array_invariant` and `partition_array_idx`),
and after `quick_sort array low high` returns, the sub-range `[low, high]`
of the sequence is sorted in non-decreasing order. -/
theorem quick_sort_sorts_range (a : List Int) (low high : Int) (h0 : 0 ≤ low)
    (hh : high < (a.length : Int)) :
    sortedOn (quick_sort a low high) low high :=
  (quick_sort_spec a low high h0 hh).2.2

theorem quick_sort_sorts_range_witness :
    0 ≤ (0 : Int) ∧ (9 : Int) < (l1.length : Int) ∧
      getI (quick_sort l1 0 9) 3 ≤ getI (quick_sort l1 0 9) 7 :=
  ⟨by decide, by decide,
    quick_sort_sorts_range l1 0 9 (by decide) (by decide) 3 7
      (by decide) (by decide) (by decide)⟩

/-- C2: for every sequence `S`, the partitioner only rearranges elements
within the range it is given (see `partition_array_frame` and
`partition_array_perm`), and the sequence held after `quick_sort` over the
full range is a permutation of `S` (the same multiset of elements) and is
non-decreasing at every adjacent pair of indices. -/
theorem sortList_perm_nondecreasing (S : List Int) :
    List.Perm (sortList S) S ∧
      ∀ i : Nat, i + 1 < (sortList S).length →
        (sortList S).getD i 0 ≤ (sortList S).getD (i + 1) 0 := by
  have h := quick_sort_spec S 0 ((S.length : Int) - 1) (by omega) (by omega)
  refine ⟨h.1, ?_⟩
  intro i hi
  have hlen : (sortList S).length = S.length := h.1.length_eq
  have h2 := h.2.2 ((i : Nat) : Int) (((i + 1 : Nat) : Nat) : Int)
    (by omega) (by omega) (by omega)
  rw [getI_natCast, getI_natCast] at h2
  exact h2

/-- C3: after the partitioner partitions a range `[low, high]` (valid in the
sequence, `low <= high`) and returns pivot index `p`, we have
`low <= p <= high`, every element at index `i` with `low <= i < p` is `<=`
the pivot value, every element at index `i` with `p < i <= high` is `>=`
the pivot value, and the element at `p` equals the pivot value `a[high]`
used for the comparisons; this holds for any input, including all-equal,
already-sorted, reverse-sorted, and single-element ranges. -/
theorem partition_array_invariant (a : List Int) (low high : Int)
    (h0 : 0 ≤ low) (hlh : low ≤ high) (hh : high < (a.length : Int)) :
    low ≤ (partition_array a low high).2 ∧
      (partition_array a low high).2 ≤ high ∧
      (∀ i : Int, low ≤ i → i < (partition_array a low high).2 →
        getI (partition_array a low high).1 i ≤ getI a high) ∧
      (∀ i : Int, (partition_array a low high).2 < i → i ≤ high →
        getI a high ≤ getI (partition_array a low high).1 i) ∧
      getI (partition_array a low high).1 (partition_array a low high).2
        = getI a high := by
  rcases eq_or_lt_of_le hlh with he | hg
  · have hpa : partition_array a low high = (a, low) := by
      rw [← he, partition_array, if_neg (lt_irrefl low)]
    rw [hpa]
    refine ⟨le_refl low, by omega, ?_, ?_, by rw [← he]⟩
    · intro i h1 h2
      exfalso
      omega
    · intro i h1 h2
      exfalso
      simp only at h1
      omega
  · obtain ⟨hplow, hphigh⟩ := partition_array_idx a low high hg
    refine ⟨hplow, hphigh, ?_, ?_, partition_array_getD_pivot a low high h0 hg hh⟩
    · intro i h1 h2
      exact partition_array_getD_left a low high h0 hg hh i.toNat
        (by omega) (by omega)
    · intro i h1 h2
      exact partition_array_getD_right a low high h0 hg hh i.toNat
        (by omega) (by omega)

theorem partition_array_invariant_witness :
    0 ≤ (0 : Int) ∧ (0 : Int) ≤ 2 ∧
      (2 : Int) < (([3, 1, 2] : List Int).length : Int) ∧
      (partition_array [3, 1, 2] 0 2).2 = 1 ∧
      getI (partition_array [3, 1, 2] 0 2).1 (partition_array [3, 1, 2] 0 2).2
        = getI [3, 1, 2] 2 :=
  ⟨by decide, by decide, by decide, by decide,
    (partition_array_invariant [3, 1, 2] 0 2 (by decide) (by decide)
      (by decide)).2.2.2.2⟩

/-- C4: `quick_sort` terminates.  The partitioner returns a pivot index
within `[low, high]` (see `partition_array_idx`), the recursive calls are
made only on the strictly smaller ranges `[low, pivotIndex - 1]` and
`[pivotIndex + 1, high]` — the pivot element is never re-examined — so fuel
equal to the size of the range (recursion depth `(high - low).toNat + 1`)
always reaches the terminal condition and produces the definite result
`quick_sort array low high` on every path. -/
theorem quick_sort_terminates (a : List Int) (low high : Int) (fuel : Nat)
    (h : (high - low).toNat < fuel) :
    quick_sortF fuel a low high = some (quick_sort a low high) :=
  quick_sortF_eq_quick_sort fuel a low high h

theorem quick_sort_terminates_witness :
    ((9 : Int) - 0).toNat < 11 ∧
      quick_sortF 11 l1 0 9 = some (quick_sort l1 0 9) :=
  ⟨by decide, quick_sort_terminates l1 0 9 11 (by decide)⟩

/-- C5: for every sequence and every range with `low >= high` (which covers
the empty and single-element sequences), `quick_sort array low high`
returns immediately — the guard `high > low` fails, so the partitioner is
never invoked — and the sequence is completely unchanged. -/
theorem quick_sort_base_unchanged (a : List Int) (low high : Int)
    (h : low ≥ high) : quick_sort a low high = a := by
  have h1 : (high - low).toNat = 0 := by omega
  rw [quick_sort, h1, quick_sortF_base Nat.one_pos h]
  rfl

theorem quick_sort_base_unchanged_witness :
    (0 : Int) ≥ 0 ∧ quick_sort [7] 0 0 = [7] ∧
      (0 : Int) ≥ -1 ∧ quick_sort [] 0 (-1) = [] :=
  ⟨by decide, quick_sort_base_unchanged [7] 0 0 (by decide),
    by decide, quick_sort_base_unchanged [] 0 (-1) (by decide)⟩

/-- C6 counterexample: call `quick_sort` on the two-element list `[1, 2]`
with `low = 5` and `high = 3`, both outside the valid index range `[0, 1]`.
The claim says the entry point raises/returns an `InvalidRange` error
immediately; instead the call completes normally (the guard `high > low`
simply fails) and hands back the sequence — the code contains no range
validation and no error of any kind. -/
theorem quick_sort_invalid_range_counterexample :
    quick_sort [1, 2] 5 3 = [1, 2] := by decide

/-- C6 (amended): the code performs no range validation and defines no
`InvalidRange` error.  Whenever `low >= high` — even when `low` or `high`
lie outside `[0, length - 1]` — `quick_sort` returns immediately with the
sequence unchanged instead of failing fast. -/
theorem quick_sort_no_range_validation (a : List Int) (low high : Int)
    (_hinv : low < 0 ∨ high < 0 ∨ (a.length : Int) ≤ low ∨
      (a.length : Int) ≤ high)
    (hle : high ≤ low) : quick_sort a low high = a := by
  have h1 : (high - low).toNat = 0 := by omega
  rw [quick_sort, h1, quick_sortF_base Nat.one_pos hle]
  rfl

theorem quick_sort_no_range_validation_witness :
    ((5 : Int) < 0 ∨ (3 : Int) < 0 ∨ (([1, 2] : List Int).length : Int) ≤ 5 ∨
      (([1, 2] : List Int).length : Int) ≤ 3) ∧
      (3 : Int) ≤ 5 ∧ quick_sort [1, 2] 5 3 = [1, 2] :=
  ⟨by decide, by decide,
    quick_sort_no_range_validation [1, 2] 5 3 (by decide) (by decide)⟩

/-- C7: on a valid range, `quick_sort` mutates the sequence's element order
within `[low, high]` only — the partitioner itself mutates only within the
range it is given (`partition_array_frame`) — so every element at an index
outside `[low, high]` still has its value from before the call. -/
theorem quick_sort_frame_outside (a : List Int) (low high : Int) (h0 : 0 ≤ low)
    (hh : high < (a.length : Int)) :
    ∀ i : Nat, ((i : Int) < low ∨ high < (i : Int)) →
      (quick_sort a low high).getD i 0 = a.getD i 0 :=
  (quick_sort_spec a low high h0 hh).2.1

theorem quick_sort_frame_outside_witness :
    0 ≤ (1 : Int) ∧ (2 : Int) < (([9, 1, 2, 8] : List Int).length : Int) ∧
      (((0 : Nat) : Int) < 1 ∨ (2 : Int) < ((0 : Nat) : Int)) ∧
      (quick_sort [9, 1, 2, 8] 1 2).getD 0 0
        = ([9, 1, 2, 8] : List Int).getD 0 0 :=
  ⟨by decide, by decide, Or.inl (by decide),
    quick_sort_frame_outside [9, 1, 2, 8] 1 2 (by decide) (by decide) 0
      (Or.inl (by decide))⟩

/-- C8: sorting the full range of a sequence is idempotent: applying the
sort twice yields the same sequence as applying it once. -/
theorem sortList_idempotent (S : List Int) :
    sortList (sortList S) = sortList S := by
  have h := quick_sort_spec S 0 ((S.length : Int) - 1) (by omega) (by omega)
  have hlen : (sortList S).length = S.length := h.1.length_eq
  have hs : sortedOn (sortList S) 0 (((sortList S).length : Int) - 1) := by
    rw [hlen]
    exact h.2.2
  show quick_sort (sortList S) 0 (((sortList S).length : Int) - 1) = sortList S
  exact quick_sort_sorted_fix (sortList S) 0 (((sortList S).length : Int) - 1)
    (by omega) (by omega) hs

/-- C9: sorting the concrete input `[34,223,22,31,1,100,50,40,22,72]` over
its full range `low = 0`, `high = 9` produces exactly
`[1,22,22,31,34,40,50,72,100,223]`, and sorting the all-equal input
`[2,2,2,2]` produces `[2,2,2,2]` — the recursion reaches its base case on a
definite result, with no out-of-range index access (every position of the
result is accounted for by the computation). -/
theorem quick_sort_concrete :
    quick_sort l1 0 9 = [1, 22, 22, 31, 34, 40, 50, 72, 100, 223] ∧
      quick_sort [2, 2, 2, 2] 0 3 = [2, 2, 2, 2] :=
  ⟨by decide, by decide⟩

/-- C10: the behavior the claim describes — the harness computing its
bounds from the list `l1` itself and inspecting `l1` afterwards — sorts all
of `l1`.  The source instead writes the integer literal `11` in both
places: `quick_sort(l1, 0, len(11)-1)` applies `len` to the integer `11`
(a `TypeError` in Python, since an integer has no length), and the final
print outputs the literal `11`, so the module as written never reaches a
sorted printout of `l1`. -/
theorem harness_intended_output :
    quick_sort l1 0 ((l1.length : Int) - 1)
      = [1, 22, 22, 31, 34, 40, 50, 72, 100, 223] := by decide
